import Mathlib

/-!
# Verification of the 2-D adaptive cross-approximation solver (`lolremez2d.cpp`)

Shallow embedding of `src/lolremez2d.cpp`.  The arbitrary-precision scalar
type `lol::real` is modelled by an arbitrary linear ordered field `α`
(the spec declares it an opaque exact numeric type); the actual target
function and Chebyshev-like grid are additionally given over `ℝ`.

The mutable solver (`struct solver`) becomes a `State` record threaded
explicitly; the function-local `static` memo table of `solver::eval_f`
becomes a cache value threaded through `eval_f`, scoped to the whole
process (`Proc`), not to one solver instance.
-/

namespace LolRemez

/-- The fields of `struct solver`.

Modelled from the spec: the member `array2d<real> m_ek` comes from
`matrix.h`, which is not part of the sources at hand; per the spec
(§3 lifecycle, §9 design notes) it is a fixed `iters × iters` matrix of
scalars created zero-filled at construction.  Its contents are represented
as a total function `Nat → Nat → α` together with the dimension `iters`;
accesses of the iteration step outside the `iters × iters` range are
surfaced as the out-of-bounds condition of `step` below. -/
structure State (α : Type) where
  grid_size : Nat
  iters : Nat
  m_ek : Nat → Nat → α
  m_coeff : List α
  m_pivots : List (α × α)

section Cache

variable {β : Type} [DecidableEq β]

/-- The linear scan of `solver::eval_f` over the recorded triples:
returns the stored value of the first entry whose two coordinates are
exactly equal to `(x, y)`. -/
def lookupCache (c : List (β × β × β)) (x y : β) : Option β :=
  match c with
  | [] => none
  | v :: rest => if x = v.1 ∧ y = v.2.1 then some v.2.2 else lookupCache rest x y

/-- `solver::eval_f`: memoised evaluation of the target function `F`.
On a hit the cached value is returned and the cache is unchanged; on a
miss `F` is applied once and the new triple is appended at the back. -/
def eval_f (F : β → β → β) (c : List (β × β × β)) (x y : β) :
    β × List (β × β × β) :=
  match lookupCache c x y with
  | some v => (v, c)
  | none => (F x y, c ++ [(x, y, F x y)])

/-- Number of applications of the target function at the fixed pair
`(x0, y0)` along a sequence of `eval_f` queries starting from cache `c`
(an application happens exactly when the query is that pair and the
lookup misses). -/
def fApplications (F : β → β → β) (x0 y0 : β) :
    List (β × β) → List (β × β × β) → Nat
  | [], _ => 0
  | (x, y) :: qs, c =>
    (if x = x0 ∧ y = y0 ∧ lookupCache c x y = none then 1 else 0)
      + fApplications F x0 y0 qs (eval_f F c x y).2

end Cache

section Solver

variable {α : Type}

/-- `m_pivots[i]` (the default is never reached at in-range indices). -/
def pget [Zero α] (s : State α) (i : Nat) : α × α :=
  s.m_pivots.getD i (0, 0)

/-- `solver::eval_ek`: the implicit `f(x,y)` term plus, for every pair of
pivot indices with a nonzero matrix entry, the contribution
`m_ek[j][i] * f(x_i, y) * f(x, y_j)` (zero entries are skipped, as in the
source). -/
def eval_ek [LinearOrderedField α] (F : α → α → α) (s : State α) (x y : α) : α :=
  F x y +
    ∑ i in Finset.range s.m_pivots.length, ∑ j in Finset.range s.m_pivots.length,
      (if s.m_ek j i ≠ 0 then s.m_ek j i * F (pget s i).1 y * F x (pget s j).2 else 0)

/-- The candidate pairs scanned by `solver::step`, in source order:
outer loop over `y`, inner loop over `x`, both over `m_coeff`. -/
def scanPairs (s : State α) : List (α × α) :=
  (s.m_coeff.map (fun y => s.m_coeff.map (fun x => (x, y)))).flatten

/-- One comparison of the pivot search: the running best is replaced
whenever `fabs(res) >= fabs(best_val)`. -/
def scanPick [LinearOrderedField α] (F : α → α → α) (s : State α)
    (b : (α × α) × α) (p : α × α) : (α × α) × α :=
  if |eval_ek F s p.1 p.2| ≥ |b.2| then (p, eval_ek F s p.1 p.2) else b

/-- The pivot search of `solver::step`, starting from
`best_pivot = {0, 0}`, `best_val = 0`. -/
def findPivot [LinearOrderedField α] (F : α → α → α) (s : State α) :
    (α × α) × α :=
  (scanPairs s).foldl (scanPick F s) (((0 : α), (0 : α)), (0 : α))

/-- The vector `ek_x` of `solver::step`: entry `size` (= current pivot
count) is the implicit-`f` slot `1`; entry `j < size` accumulates
`m_ek[j][i] * eval_f(m_pivots[i].x, best_pivot.y)` over the nonzero
entries of row `j`. -/
def ekxVec [LinearOrderedField α] (F : α → α → α) (s : State α)
    (ystar : α) (j : Nat) : α :=
  if j = s.m_pivots.length then 1
  else
    ∑ i in Finset.range s.m_pivots.length,
      (if s.m_ek j i ≠ 0 then s.m_ek j i * F (pget s i).1 ystar else 0)

/-- The vector `ek_y` of `solver::step`, symmetric to `ekxVec`. -/
def ekyVec [LinearOrderedField α] (F : α → α → α) (s : State α)
    (xstar : α) (i : Nat) : α :=
  if i = s.m_pivots.length then 1
  else
    ∑ j in Finset.range s.m_pivots.length,
      (if s.m_ek j i ≠ 0 then s.m_ek j i * F xstar (pget s j).2 else 0)

/-- The successful tail of `solver::step` given the chosen pivot `bp`
with value `bv`: the rank update
`m_ek[j][i] -= ek_y[i] * ek_x[j] * dk` over all `i, j ≤ size`
(with `dk = 1 / bv`), followed by the append of the pivot. -/
def applyPivot [LinearOrderedField α] (F : α → α → α) (s : State α)
    (bp : α × α) (bv : α) : State α :=
  { s with
    m_ek := fun j i =>
      if j ≤ s.m_pivots.length ∧ i ≤ s.m_pivots.length then
        s.m_ek j i - ekyVec F s bp.1 i * ekxVec F s bp.2 j * (1 / bv)
      else s.m_ek j i
    m_pivots := s.m_pivots ++ [bp] }

/-- `solver::step` restricted to its successful path. -/
def stepPure [LinearOrderedField α] (F : α → α → α) (s : State α) : State α :=
  applyPivot F s (findPivot F s).1 (findPivot F s).2

/-- The two failure conditions of the iteration step: division by an
exactly-zero maximal residual (`dk = 1 / best_val`), and access to the
coefficient matrix outside its `iters × iters` extent. -/
inductive StepError : Type where
  | divByZero : StepError
  | outOfBounds : StepError

/-- `solver::step` as a state transition that surfaces its failure
conditions, in source order: the grid scan reads matrix indices up to
`size - 1` (out of bounds as soon as `size > iters` and the scan is
nonempty); then `dk = 1 / best_val` (division error when the selected
residual is exactly zero); then the rank update writes indices up to
`size` (out of bounds when `size = iters`). -/
def step [LinearOrderedField α] (F : α → α → α) (s : State α) :
    Except StepError (State α) :=
  if s.m_coeff ≠ [] ∧ s.iters < s.m_pivots.length then .error .outOfBounds
  else if (findPivot F s).2 = 0 then .error .divByZero
  else if s.m_pivots.length = s.iters then .error .outOfBounds
  else .ok (stepPure F s)

/-- The `solver` constructor with an explicit candidate grid: empty pivot
list and zero-filled coefficient matrix (see `State.m_ek`); no capacity
check of any kind is performed. -/
def mkSolverWith [Zero α] (coeff : List α) (grid_size iters : Nat) : State α :=
  { grid_size := grid_size, iters := iters, m_ek := fun _ _ => 0,
    m_coeff := coeff, m_pivots := [] }

/-- Solver states reachable by constructing a solver and performing
successful iteration steps. -/
inductive Reachable [LinearOrderedField α] (F : α → α → α) : State α → Prop where
  | init : ∀ coeff g i, Reachable F (mkSolverWith coeff g i)
  | next : ∀ s s', Reachable F s → step F s = .ok s' → Reachable F s'

end Solver

section Emitter

variable {α : Type}

/-- The four statements printed by one turn of the `dump_gnuplot` loop
for 0-based pivot index `n` with pivot `p`; `render` stands for the
stream formatting of one scalar. -/
def pivotLines (render : α → String) (n : Nat) (p : α × α) : List String :=
  ["x" ++ toString (n + 1) ++ "=" ++ render p.1,
   "y" ++ toString (n + 1) ++ "=" ++ render p.2,
   "d" ++ toString (n + 1) ++ "=e" ++ toString n ++ "(x" ++ toString (n + 1)
     ++ ",y" ++ toString (n + 1) ++ ")",
   "e" ++ toString (n + 1) ++ "(x,y)=e" ++ toString n ++ "(x,y)-e" ++ toString n
     ++ "(x" ++ toString (n + 1) ++ ",y)*e" ++ toString n ++ "(x,y"
     ++ toString (n + 1) ++ ")/d" ++ toString (n + 1)]

/-- `solver::dump_gnuplot`, as the list of emitted lines: the target
function definition, `e0`, the per-pivot blocks in pivot order, and the
final `splot` directive. -/
def dump_gnuplot (render : α → String) (s : State α) : List String :=
  "f(x,y)=sin((1-x)/2*acos((1+y)/2))/sqrt(1-((y+1)/2)**2)" ::
    "e0(x,y)=f(x,y)" ::
      ((s.m_pivots.enum.map (fun q => pivotLines render q.1 q.2)).flatten
        ++ ["splot [-1:1][-1:1] e" ++ toString s.m_pivots.length ++ "(x,y)"])

end Emitter

section Process

variable {β : Type} [DecidableEq β] [Zero β]

/-- A whole process: the function-local `static` cache of
`solver::eval_f` (one per process, not per solver) together with the
solver instances constructed so far. -/
structure Proc (β : Type) where
  cache : List (β × β × β)
  solvers : List (State β)

/-- Process start: the `static` cache is empty before its first use. -/
def procStart : Proc β := ⟨[], []⟩

/-- Constructing a further `solver` instance: the constructor touches
only the new instance's own fields; the shared cache is untouched. -/
def constructSolver (coeff : List β) (g i : Nat) (P : Proc β) : Proc β :=
  ⟨P.cache, P.solvers ++ [mkSolverWith coeff g i]⟩

/-- `solver::eval_f` invoked through the solver instance numbered
`inst`: the member function reads no per-instance field, only the shared
`static` cache, so `inst` cannot influence the result. -/
def eval_f_via (F : β → β → β) (P : Proc β) (_inst : Nat) (x y : β) :
    β × Proc β :=
  ((eval_f F P.cache x y).1, ⟨(eval_f F P.cache x y).2, P.solvers⟩)

end Process

section RealModel

/-- `solver::cheb`: the perturbed Chebyshev-like node
`-cos(π·i/n) · 0.999999999999999`. -/
noncomputable def cheb (i n : Nat) : ℝ :=
  -Real.cos (Real.pi * i / n) * ((999999999999999 : ℝ) / 1000000000000000)

/-- The target function `f` of `lolremez2d.cpp`:
`sin((1-u)·acos(d)) / sqrt(1-d²)` with `u = (x+1)/2`, `d = (y+1)/2`. -/
noncomputable def f (x y : ℝ) : ℝ :=
  Real.sin ((1 - (x + 1) / 2) * Real.arccos ((y + 1) / 2)) /
    Real.sqrt (1 - ((y + 1) / 2) * ((y + 1) / 2))

/-- The `solver` constructor: the candidate grid is
`cheb(i, grid_size)` for `i = 0 … grid_size`. -/
noncomputable def mkSolver (grid_size iters : Nat) : State ℝ :=
  mkSolverWith ((List.range (grid_size + 1)).map (fun i => cheb i grid_size))
    grid_size iters

end RealModel

section Fixtures

/-- A constant target function over `ℚ`, used for concrete evaluations. -/
def fConst : ℚ → ℚ → ℚ := fun _ _ => 1

/-- An affine target function over `ℚ`, used for concrete evaluations. -/
def fAff : ℚ → ℚ → ℚ := fun x y => x + y + 1

/-- A concrete two-node solver over `ℚ` with capacity for one pivot. -/
def q0 : State ℚ := mkSolverWith [0, 1] 1 1

/-- A fixed scalar rendering for emitter statements over `ℚ`. -/
def qRender : ℚ → String := fun _ => "c"

/-- A concrete pivot-free solver over `ℚ`. -/
def qEmitA : State ℚ := mkSolverWith [0] 1 2

/-- `qEmitA` with a different coefficient matrix but the same pivots. -/
def qEmitB : State ℚ := { qEmitA with m_ek := fun _ _ => 5 }

end Fixtures

/-! ## Cache lemmas (solver::eval_f) -/

section CacheLemmas

variable {β : Type} [DecidableEq β] {F : β → β → β}

lemma lookupCache_mem {c : List (β × β × β)} {x y v : β}
    (h : lookupCache c x y = some v) : (x, y, v) ∈ c := by
  induction c with
  | nil => simp [lookupCache] at h
  | cons e rest ih =>
    obtain ⟨a, b, w⟩ := e
    rw [lookupCache] at h
    by_cases hxy : x = a ∧ y = b
    · obtain ⟨hx, hy⟩ := hxy
      subst hx; subst hy
      rw [if_pos ⟨rfl, rfl⟩] at h
      injection h with h
      subst h
      exact List.mem_cons_self _ _
    · rw [if_neg (by simpa using hxy)] at h
      exact List.mem_cons_of_mem _ (ih h)

lemma lookupCache_append_some {c : List (β × β × β)} {x y v : β}
    (l : List (β × β × β)) (h : lookupCache c x y = some v) :
    lookupCache (c ++ l) x y = some v := by
  induction c with
  | nil => simp [lookupCache] at h
  | cons e rest ih =>
    rw [lookupCache] at h
    rw [List.cons_append, lookupCache]
    by_cases hxy : x = e.1 ∧ y = e.2.1
    · rwa [if_pos hxy] at h ⊢
    · rw [if_neg hxy] at h ⊢
      exact ih h

lemma lookupCache_append_self {c : List (β × β × β)} {x y : β} (w : β)
    (h : lookupCache c x y = none) :
    lookupCache (c ++ [(x, y, w)]) x y = some w := by
  induction c with
  | nil => simp [lookupCache]
  | cons e rest ih =>
    rw [lookupCache] at h
    rw [List.cons_append, lookupCache]
    by_cases hxy : x = e.1 ∧ y = e.2.1
    · rw [if_pos hxy] at h
      exact absurd h (by simp)
    · rw [if_neg hxy] at h ⊢
      exact ih h

lemma eval_f_val {c : List (β × β × β)} (x y : β)
    (hwf : ∀ e ∈ c, e.2.2 = F e.1 e.2.1) : (eval_f F c x y).1 = F x y := by
  rcases h : lookupCache c x y with _ | v
  · simp [eval_f, h]
  · have hm := lookupCache_mem h
    have := hwf _ hm
    simp [eval_f, h]
    simpa using this

lemma eval_f_wf {c : List (β × β × β)} (x y : β)
    (hwf : ∀ e ∈ c, e.2.2 = F e.1 e.2.1) :
    ∀ e ∈ (eval_f F c x y).2, e.2.2 = F e.1 e.2.1 := by
  rcases h : lookupCache c x y with _ | v
  · intro e he
    rw [eval_f, h] at he
    rcases List.mem_append.mp he with h1 | h2
    · exact hwf _ h1
    · have : e = (x, y, F x y) := by simpa using h2
      subst this; rfl
  · intro e he
    rw [eval_f, h] at he
    exact hwf _ he

lemma eval_f_grows {c : List (β × β × β)} (x y : β) :
    (eval_f F c x y).2 = c ∨ (eval_f F c x y).2 = c ++ [(x, y, F x y)] := by
  rcases h : lookupCache c x y with _ | v
  · right; simp [eval_f, h]
  · left; simp [eval_f, h]

lemma eval_f_idem {c : List (β × β × β)} (x y : β) :
    eval_f F (eval_f F c x y).2 x y = ((eval_f F c x y).1, (eval_f F c x y).2) := by
  rcases h : lookupCache c x y with _ | v
  · have h2 := lookupCache_append_self (F x y) h
    simp [eval_f, h, h2]
  · simp [eval_f, h]

lemma fApplications_of_hit (a b : β) (qs : List (β × β)) :
    ∀ c : List (β × β × β), lookupCache c a b ≠ none →
      fApplications F a b qs c = 0 := by
  induction qs with
  | nil => intro c _; rfl
  | cons q qs ih =>
    intro c h
    obtain ⟨x, y⟩ := q
    rw [fApplications]
    have hrec : fApplications F a b qs (eval_f F c x y).2 = 0 := by
      apply ih
      obtain ⟨v, hv⟩ := Option.ne_none_iff_exists'.mp h
      rcases eval_f_grows (F := F) (c := c) x y with hc | hc
      · rw [hc, hv]; simp
      · rw [hc, lookupCache_append_some _ hv]; simp
    rw [hrec]
    by_cases hif : x = a ∧ y = b ∧ lookupCache c x y = none
    · obtain ⟨rfl, rfl, hn⟩ := hif
      exact absurd hn h
    · rw [if_neg hif]

lemma fApplications_le (a b : β) (qs : List (β × β)) :
    ∀ c : List (β × β × β), fApplications F a b qs c ≤ 1 := by
  induction qs with
  | nil => intro c; exact Nat.zero_le 1
  | cons q qs ih =>
    intro c
    obtain ⟨x, y⟩ := q
    rw [fApplications]
    by_cases hq : x = a ∧ y = b ∧ lookupCache c x y = none
    · obtain ⟨rfl, rfl, hn⟩ := hq
      rw [if_pos ⟨rfl, rfl, hn⟩]
      have hgrow : (eval_f F c x y).2 = c ++ [(x, y, F x y)] := by
        simp [eval_f, hn]
      have hhit : lookupCache (eval_f F c x y).2 x y ≠ none := by
        rw [hgrow, lookupCache_append_self (F x y) hn]
        simp
      have hrec := fApplications_of_hit (F := F) x y qs (eval_f F c x y).2 hhit
      omega
    · rw [if_neg hq]
      have := ih (eval_f F c x y).2
      omega

end CacheLemmas

/-! ## C5 and C6 -/

/-- C5: under a well-formed cache, `eval_f` returns exactly `F x y`
(so all calls at a fixed pair agree), preserves well-formedness, only
ever appends (a single new triple, or nothing), a repeated call is
answered from the cache without change, and along any query sequence
from the process-initial empty cache the target function is applied at
most once per distinct coordinate pair. -/
theorem eval_f_memoized {β : Type} [DecidableEq β] (F : β → β → β)
    (c : List (β × β × β)) (x y : β)
    (hwf : ∀ e ∈ c, e.2.2 = F e.1 e.2.1) :
    (eval_f F c x y).1 = F x y
    ∧ (∀ e ∈ (eval_f F c x y).2, e.2.2 = F e.1 e.2.1)
    ∧ ((eval_f F c x y).2 = c ∨ (eval_f F c x y).2 = c ++ [(x, y, F x y)])
    ∧ eval_f F (eval_f F c x y).2 x y = ((eval_f F c x y).1, (eval_f F c x y).2)
    ∧ (∀ (qs : List (β × β)) (a b : β),
        fApplications F a b qs ([] : List (β × β × β)) ≤ 1) :=
  ⟨eval_f_val x y hwf, eval_f_wf x y hwf, eval_f_grows x y, eval_f_idem x y,
    fun qs a b => fApplications_le a b qs []⟩

/-- Witness for the memoisation theorem at a concrete instance. -/
theorem eval_f_memoized_witness :
    (∀ e ∈ ([] : List (ℚ × ℚ × ℚ)), e.2.2 = fAff e.1 e.2.1)
    ∧ ((eval_f fAff ([] : List (ℚ × ℚ × ℚ)) 2 3).1 = fAff 2 3
      ∧ (∀ e ∈ (eval_f fAff ([] : List (ℚ × ℚ × ℚ)) 2 3).2, e.2.2 = fAff e.1 e.2.1)
      ∧ ((eval_f fAff ([] : List (ℚ × ℚ × ℚ)) 2 3).2 = []
          ∨ (eval_f fAff ([] : List (ℚ × ℚ × ℚ)) 2 3).2 = [] ++ [(2, 3, fAff 2 3)])
      ∧ eval_f fAff (eval_f fAff ([] : List (ℚ × ℚ × ℚ)) 2 3).2 2 3
          = ((eval_f fAff ([] : List (ℚ × ℚ × ℚ)) 2 3).1,
             (eval_f fAff ([] : List (ℚ × ℚ × ℚ)) 2 3).2)
      ∧ (∀ (qs : List (ℚ × ℚ)) (a b : ℚ),
          fApplications fAff a b qs ([] : List (ℚ × ℚ × ℚ)) ≤ 1)) :=
  ⟨by simp, eval_f_memoized fAff [] 2 3 (by simp)⟩

/-- C6 (amended): the evaluation cache is a single process-wide table
(the function-local `static` of `eval_f`): it is empty at process start,
constructing a solver neither creates nor clears any cache, the result
and effect of `eval_f` do not depend on which solver instance makes the
call, and an entry cached through one instance answers a later call made
through any other instance. -/
theorem cache_process_wide {β : Type} [DecidableEq β] [Zero β] (F : β → β → β) :
    ((procStart : Proc β).cache = [])
    ∧ (∀ (l : List β) (g i : Nat) (P : Proc β),
        (constructSolver l g i P).cache = P.cache)
    ∧ (∀ (P : Proc β) (i j : Nat) (x y : β),
        eval_f_via F P i x y = eval_f_via F P j x y)
    ∧ (∀ (P : Proc β) (i j : Nat) (x y : β),
        eval_f_via F (eval_f_via F P i x y).2 j x y
          = ((eval_f_via F P i x y).1, (eval_f_via F P i x y).2)) := by
  refine ⟨rfl, fun l g i P => rfl, fun P i j x y => rfl, fun P i j x y => ?_⟩
  have h := eval_f_idem (F := F) (c := P.cache) x y
  simp only [eval_f_via]
  rw [h]

/-- C6 counterexample: with the target evaluated once at `(2, 5)`
through a first solver instance, a second, freshly constructed instance
observes a nonempty cache and its own first call at `(2, 5)` is answered
from that cache without any further write. -/
theorem cache_shared_across_instances_cex :
    (constructSolver [] 1 1
        ((eval_f_via fAff (constructSolver [] 1 1 (procStart : Proc ℚ)) 0 2 5).2)).cache ≠ []
    ∧ (eval_f_via fAff (constructSolver [] 1 1
        ((eval_f_via fAff (constructSolver [] 1 1 (procStart : Proc ℚ)) 0 2 5).2)) 1 2 5).1 = 8
    ∧ (eval_f_via fAff (constructSolver [] 1 1
        ((eval_f_via fAff (constructSolver [] 1 1 (procStart : Proc ℚ)) 0 2 5).2)) 1 2 5).2.cache
      = (constructSolver [] 1 1
        ((eval_f_via fAff (constructSolver [] 1 1 (procStart : Proc ℚ)) 0 2 5).2)).cache := by
  refine ⟨?_, ?_, ?_⟩ <;> with_unfolding_all decide

/-! ## Solver lemmas -/

section SolverLemmas

variable {α : Type} [LinearOrderedField α]

lemma ite_ne_mul3 (a b c : α) : (if a ≠ 0 then a * b * c else 0) = a * b * c := by
  by_cases h : a = 0 <;> simp [h]

lemma ite_ne_mul2 (a b : α) : (if a ≠ 0 then a * b else 0) = a * b := by
  by_cases h : a = 0 <;> simp [h]

lemma eval_ek_eq (F : α → α → α) (s : State α) (x y : α) :
    eval_ek F s x y
      = F x y + ∑ i in Finset.range s.m_pivots.length,
          ∑ j in Finset.range s.m_pivots.length,
            s.m_ek j i * F (pget s i).1 y * F x (pget s j).2 := by
  unfold eval_ek
  congr 1
  refine Finset.sum_congr rfl fun i _ => Finset.sum_congr rfl fun j _ => ?_
  exact ite_ne_mul3 _ _ _

lemma ekxVec_lt (F : α → α → α) (s : State α) (t : α) {j : Nat}
    (hj : j < s.m_pivots.length) :
    ekxVec F s t j
      = ∑ i in Finset.range s.m_pivots.length, s.m_ek j i * F (pget s i).1 t := by
  rw [ekxVec, if_neg (Nat.ne_of_lt hj)]
  exact Finset.sum_congr rfl fun i _ => ite_ne_mul2 _ _

lemma ekxVec_self (F : α → α → α) (s : State α) (t : α) :
    ekxVec F s t s.m_pivots.length = 1 := by
  rw [ekxVec, if_pos rfl]

lemma ekyVec_lt (F : α → α → α) (s : State α) (t : α) {i : Nat}
    (hi : i < s.m_pivots.length) :
    ekyVec F s t i
      = ∑ j in Finset.range s.m_pivots.length, s.m_ek j i * F t (pget s j).2 := by
  rw [ekyVec, if_neg (Nat.ne_of_lt hi)]
  exact Finset.sum_congr rfl fun j _ => ite_ne_mul2 _ _

lemma ekyVec_self (F : α → α → α) (s : State α) (t : α) :
    ekyVec F s t s.m_pivots.length = 1 := by
  rw [ekyVec, if_pos rfl]

lemma applyPivot_pivots (F : α → α → α) (s : State α) (p : α × α) (v : α) :
    (applyPivot F s p v).m_pivots = s.m_pivots ++ [p] := rfl

lemma applyPivot_pget_lt (F : α → α → α) (s : State α) (p : α × α) (v : α)
    {i : Nat} (hi : i < s.m_pivots.length) :
    pget (applyPivot F s p v) i = pget s i := by
  simp only [pget, applyPivot_pivots]
  exact List.getD_append _ _ _ _ hi

lemma applyPivot_pget_self (F : α → α → α) (s : State α) (p : α × α) (v : α) :
    pget (applyPivot F s p v) s.m_pivots.length = p := by
  simp only [pget, applyPivot_pivots]
  rw [List.getD_append_right _ _ _ _ le_rfl, Nat.sub_self]
  rfl

lemma applyPivot_m_ek (F : α → α → α) (s : State α) (p : α × α) (v : α)
    {i j : Nat} (hi : i ≤ s.m_pivots.length) (hj : j ≤ s.m_pivots.length) :
    (applyPivot F s p v).m_ek j i
      = s.m_ek j i - ekyVec F s p.1 i * ekxVec F s p.2 j * (1 / v) := by
  show (if j ≤ s.m_pivots.length ∧ i ≤ s.m_pivots.length then _ else _) = _
  rw [if_pos ⟨hj, hi⟩]

lemma applyPivot_m_ek_out (F : α → α → α) (s : State α) (p : α × α) (v : α)
    {i j : Nat} (h : ¬(j ≤ s.m_pivots.length ∧ i ≤ s.m_pivots.length)) :
    (applyPivot F s p v).m_ek j i = s.m_ek j i := by
  show (if _ then _ else _) = _
  rw [if_neg h]

lemma applyPivot_zero (F : α → α → α) (s : State α) (p : α × α) {v : α}
    (hz : ∀ i j, s.m_pivots.length ≤ i ∨ s.m_pivots.length ≤ j → s.m_ek j i = 0)
    (hv : v = eval_ek F s p.1 p.2) (hne : v ≠ 0) :
    eval_ek F (applyPivot F s p v) p.1 p.2 = 0 := by
  set k := s.m_pivots.length with hk
  set s' := applyPivot F s p v with hs'
  have hlen : s'.m_pivots.length = k + 1 := by
    simp [hs', applyPivot_pivots, hk]
  have hcore : ∑ i in Finset.range k, ∑ j in Finset.range k,
      s.m_ek j i * F (pget s i).1 p.2 * F p.1 (pget s j).2 = v - F p.1 p.2 := by
    rw [hv, eval_ek_eq, ← hk]
    ring
  have hA : ∀ i, i < k → pget s' i = pget s i := fun i hi =>
    applyPivot_pget_lt F s p v hi
  have hAk : pget s' k = p := applyPivot_pget_self F s p v
  have hsplit : ∑ i in Finset.range (k + 1), ∑ j in Finset.range (k + 1),
        s'.m_ek j i * F (pget s' i).1 p.2 * F p.1 (pget s' j).2
      = (∑ i in Finset.range (k + 1), ∑ j in Finset.range (k + 1),
          s.m_ek j i * F (pget s' i).1 p.2 * F p.1 (pget s' j).2)
        - (1 / v) *
          ((∑ i in Finset.range (k + 1), ekyVec F s p.1 i * F (pget s' i).1 p.2)
            * (∑ j in Finset.range (k + 1), ekxVec F s p.2 j * F p.1 (pget s' j).2)) := by
    calc ∑ i in Finset.range (k + 1), ∑ j in Finset.range (k + 1),
          s'.m_ek j i * F (pget s' i).1 p.2 * F p.1 (pget s' j).2
        = ∑ i in Finset.range (k + 1), ∑ j in Finset.range (k + 1),
            (s.m_ek j i * F (pget s' i).1 p.2 * F p.1 (pget s' j).2
              - (1 / v) * ((ekyVec F s p.1 i * F (pget s' i).1 p.2)
                  * (ekxVec F s p.2 j * F p.1 (pget s' j).2))) := by
          refine Finset.sum_congr rfl fun i hi => Finset.sum_congr rfl fun j hj => ?_
          rw [applyPivot_m_ek F s p v (Nat.lt_succ_iff.mp (Finset.mem_range.mp hi))
            (Nat.lt_succ_iff.mp (Finset.mem_range.mp hj))]
          ring
      _ = (∑ i in Finset.range (k + 1), ∑ j in Finset.range (k + 1),
            s.m_ek j i * F (pget s' i).1 p.2 * F p.1 (pget s' j).2)
          - ∑ i in Finset.range (k + 1), ∑ j in Finset.range (k + 1),
              (1 / v) * ((ekyVec F s p.1 i * F (pget s' i).1 p.2)
                * (ekxVec F s p.2 j * F p.1 (pget s' j).2)) := by
          simp only [Finset.sum_sub_distrib]
      _ = _ := by
          rw [Finset.sum_mul_sum]
          simp only [Finset.mul_sum]
  have hS1 : ∑ i in Finset.range (k + 1), ∑ j in Finset.range (k + 1),
      s.m_ek j i * F (pget s' i).1 p.2 * F p.1 (pget s' j).2 = v - F p.1 p.2 := by
    rw [Finset.sum_range_succ]
    have hlast : ∑ j in Finset.range (k + 1),
        s.m_ek j k * F (pget s' k).1 p.2 * F p.1 (pget s' j).2 = 0 :=
      Finset.sum_eq_zero fun j _ => by
        rw [hz k j (Or.inl le_rfl), zero_mul, zero_mul]
    rw [hlast, add_zero]
    have hinner : ∀ i ∈ Finset.range k,
        ∑ j in Finset.range (k + 1),
            s.m_ek j i * F (pget s' i).1 p.2 * F p.1 (pget s' j).2
          = ∑ j in Finset.range k,
              s.m_ek j i * F (pget s i).1 p.2 * F p.1 (pget s j).2 := by
      intro i hi
      rw [Finset.sum_range_succ, hz i k (Or.inr le_rfl), zero_mul, zero_mul, add_zero]
      refine Finset.sum_congr rfl fun j hj => ?_
      rw [hA i (Finset.mem_range.mp hi), hA j (Finset.mem_range.mp hj)]
    rw [Finset.sum_congr rfl hinner, hcore]
  have hSY : ∑ i in Finset.range (k + 1),
      ekyVec F s p.1 i * F (pget s' i).1 p.2 = v := by
    rw [Finset.sum_range_succ, hAk]
    have h1 : ekyVec F s p.1 k = 1 := ekyVec_self F s p.1
    rw [h1, one_mul]
    have h2 : ∑ i in Finset.range k, ekyVec F s p.1 i * F (pget s' i).1 p.2
        = v - F p.1 p.2 := by
      calc ∑ i in Finset.range k, ekyVec F s p.1 i * F (pget s' i).1 p.2
          = ∑ i in Finset.range k, ∑ j in Finset.range k,
              s.m_ek j i * F (pget s i).1 p.2 * F p.1 (pget s j).2 := by
            refine Finset.sum_congr rfl fun i hi => ?_
            rw [hA i (Finset.mem_range.mp hi),
              ekyVec_lt F s p.1 (Finset.mem_range.mp hi), Finset.sum_mul]
            exact Finset.sum_congr rfl fun j _ => by ring
        _ = v - F p.1 p.2 := hcore
    rw [h2]
    ring
  have hSX : ∑ j in Finset.range (k + 1),
      ekxVec F s p.2 j * F p.1 (pget s' j).2 = v := by
    rw [Finset.sum_range_succ, hAk]
    have h1 : ekxVec F s p.2 k = 1 := ekxVec_self F s p.2
    rw [h1, one_mul]
    have h2 : ∑ j in Finset.range k, ekxVec F s p.2 j * F p.1 (pget s' j).2
        = v - F p.1 p.2 := by
      calc ∑ j in Finset.range k, ekxVec F s p.2 j * F p.1 (pget s' j).2
          = ∑ j in Finset.range k, ∑ i in Finset.range k,
              s.m_ek j i * F (pget s i).1 p.2 * F p.1 (pget s j).2 := by
            refine Finset.sum_congr rfl fun j hj => ?_
            rw [hA j (Finset.mem_range.mp hj),
              ekxVec_lt F s p.2 (Finset.mem_range.mp hj), Finset.sum_mul]
        _ = ∑ i in Finset.range k, ∑ j in Finset.range k,
              s.m_ek j i * F (pget s i).1 p.2 * F p.1 (pget s j).2 := Finset.sum_comm
        _ = v - F p.1 p.2 := hcore
    rw [h2]
    ring
  rw [eval_ek_eq, hlen, hsplit, hS1, hSY, hSX]
  field_simp

end SolverLemmas

/-! ## Pivot-scan lemmas -/

section ScanPureLemmas

variable {α : Type}

lemma scanPairs_mem (s : State α) (p : α × α) :
    p ∈ scanPairs s ↔ p.1 ∈ s.m_coeff ∧ p.2 ∈ s.m_coeff := by
  constructor
  · intro hp
    rcases List.mem_flatten.mp hp with ⟨row, hrow, hprow⟩
    rcases List.mem_map.mp hrow with ⟨y, hy, rfl⟩
    rcases List.mem_map.mp hprow with ⟨x, hx, rfl⟩
    exact ⟨hx, hy⟩
  · rintro ⟨h1, h2⟩
    apply List.mem_flatten.mpr
    refine ⟨s.m_coeff.map (fun x => (x, p.2)), List.mem_map.mpr ⟨p.2, h2, rfl⟩, ?_⟩
    exact List.mem_map.mpr ⟨p.1, h1, rfl⟩

lemma flatten_grid_length (l m : List α) :
    ((l.map (fun y => m.map (fun x => (x, y)))).flatten).length
      = l.length * m.length := by
  induction l with
  | nil => simp
  | cons a l ih =>
    simp only [List.map_cons, List.flatten_cons, List.length_append, List.length_map,
      ih, List.length_cons]
    rw [Nat.succ_mul]
    omega

lemma scanPairs_length (s : State α) :
    (scanPairs s).length = s.m_coeff.length * s.m_coeff.length :=
  flatten_grid_length s.m_coeff s.m_coeff

lemma scanPairs_ne_nil (s : State α) (hc : s.m_coeff ≠ []) : scanPairs s ≠ [] := by
  intro h0
  have hl := scanPairs_length s
  rw [h0] at hl
  simp only [List.length_nil] at hl
  rcases Nat.mul_eq_zero.mp hl.symm with h | h <;>
    exact hc (List.length_eq_zero.mp h)

end ScanPureLemmas

section ScanLemmas

variable {α : Type} [LinearOrderedField α]

lemma foldl_scanPick_snd_le (F : α → α → α) (s : State α) (l : List (α × α)) :
    ∀ b : (α × α) × α, |b.2| ≤ |(l.foldl (scanPick F s) b).2| := by
  induction l with
  | nil => intro b; exact le_rfl
  | cons q l ih =>
    intro b
    rw [List.foldl_cons]
    refine le_trans ?_ (ih (scanPick F s b q))
    rw [scanPick]
    split
    · next h => exact h
    · exact le_rfl

lemma foldl_scanPick_mem_le (F : α → α → α) (s : State α) (l : List (α × α)) :
    ∀ b : (α × α) × α, ∀ p ∈ l,
      |eval_ek F s p.1 p.2| ≤ |(l.foldl (scanPick F s) b).2| := by
  induction l with
  | nil => intro b p hp; simp at hp
  | cons q l ih =>
    intro b p hp
    rw [List.foldl_cons]
    rcases List.mem_cons.mp hp with rfl | hp2
    · refine le_trans ?_ (foldl_scanPick_snd_le F s l (scanPick F s b p))
      rw [scanPick]
      split
      · exact le_rfl
      · next h => exact (not_le.mp h).le
    · exact ih (scanPick F s b q) p hp2

lemma foldl_scanPick_spec (F : α → α → α) (s : State α) (l : List (α × α)) :
    ∀ b : (α × α) × α,
      (l.foldl (scanPick F s) b = b ∧ ∀ p ∈ l, |eval_ek F s p.1 p.2| < |b.2|)
      ∨ ∃ t1 p t2, l = t1 ++ p :: t2
          ∧ l.foldl (scanPick F s) b = (p, eval_ek F s p.1 p.2)
          ∧ ∀ q ∈ t2, |eval_ek F s q.1 q.2| < |eval_ek F s p.1 p.2| := by
  induction l with
  | nil => intro b; left; exact ⟨rfl, by simp⟩
  | cons q l ih =>
    intro b
    rw [List.foldl_cons]
    rcases ih (scanPick F s b q) with ⟨heq, hlt⟩ | ⟨t1, p, t2, hd, heq, hlt⟩
    · by_cases h : |eval_ek F s q.1 q.2| ≥ |b.2|
      · right
        refine ⟨[], q, l, rfl, ?_, ?_⟩
        · rw [heq, scanPick, if_pos h]
        · intro r hr
          have hx := hlt r hr
          rwa [scanPick, if_pos h] at hx
      · left
        constructor
        · rw [heq, scanPick, if_neg h]
        · intro r hr
          rcases List.mem_cons.mp hr with rfl | hr2
          · exact not_le.mp h
          · have hx := hlt r hr2
            rwa [scanPick, if_neg h] at hx
    · right
      exact ⟨q :: t1, p, t2, by rw [hd, List.cons_append], heq, hlt⟩

lemma findPivot_nil (F : α → α → α) (s : State α) (h : s.m_coeff = []) :
    findPivot F s = (((0 : α), (0 : α)), (0 : α)) := by
  rw [findPivot, scanPairs, h]
  rfl

lemma findPivot_consistent (F : α → α → α) (s : State α)
    (h : (findPivot F s).2 ≠ 0) :
    (findPivot F s).2 = eval_ek F s (findPivot F s).1.1 (findPivot F s).1.2 := by
  rcases foldl_scanPick_spec F s (scanPairs s) (((0, 0), 0))
    with ⟨heq, _⟩ | ⟨t1, p, t2, _, heq, _⟩
  · have hx : findPivot F s = ((((0 : α), (0 : α)), (0 : α)) : (α × α) × α) := heq
    rw [hx] at h
    simp at h
  · have hfp : findPivot F s = (p, eval_ek F s p.1 p.2) := heq
    rw [hfp]

lemma findPivot_max (F : α → α → α) (s : State α) :
    ∀ p ∈ scanPairs s, |eval_ek F s p.1 p.2| ≤ |(findPivot F s).2| :=
  fun p hp => foldl_scanPick_mem_le F s (scanPairs s) (((0, 0), 0)) p hp

lemma findPivot_spec (F : α → α → α) (s : State α) (hc : s.m_coeff ≠ []) :
    ∃ t1 t2, scanPairs s = t1 ++ (findPivot F s).1 :: t2
      ∧ (findPivot F s).2 = eval_ek F s (findPivot F s).1.1 (findPivot F s).1.2
      ∧ ∀ q ∈ t2, |eval_ek F s q.1 q.2| < |(findPivot F s).2| := by
  rcases foldl_scanPick_spec F s (scanPairs s) (((0, 0), 0))
    with ⟨_, hlt⟩ | ⟨t1, p, t2, hd, heq, hlt⟩
  · obtain ⟨q, hq⟩ := List.exists_mem_of_ne_nil _ (scanPairs_ne_nil s hc)
    have hx := hlt q hq
    have h2 : (0 : α) ≤ |eval_ek F s q.1 q.2| := abs_nonneg _
    simp only [abs_zero] at hx
    exact absurd hx (not_lt.mpr h2)
  · have hfp : findPivot F s = (p, eval_ek F s p.1 p.2) := heq
    refine ⟨t1, t2, ?_, ?_, ?_⟩
    · rw [hfp]
      exact hd
    · rw [hfp]
    · rw [hfp]
      exact hlt

end ScanLemmas

/-! ## Step and reachability lemmas -/

section StepLemmas

variable {α : Type} [LinearOrderedField α]

lemma step_ok (F : α → α → α) {s t : State α} (h : step F s = .ok t) :
    (findPivot F s).2 ≠ 0 ∧ s.m_pivots.length < s.iters ∧ t = stepPure F s := by
  rw [step] at h
  by_cases h1 : s.m_coeff ≠ [] ∧ s.iters < s.m_pivots.length
  · rw [if_pos h1] at h
    exact absurd h (by simp)
  · rw [if_neg h1] at h
    by_cases h2 : (findPivot F s).2 = 0
    · rw [if_pos h2] at h
      exact absurd h (by simp)
    · rw [if_neg h2] at h
      by_cases h3 : s.m_pivots.length = s.iters
      · rw [if_pos h3] at h
        exact absurd h (by simp)
      · rw [if_neg h3] at h
        injection h with h
        refine ⟨h2, ?_, h.symm⟩
        by_cases hc : s.m_coeff = []
        · exact absurd (by rw [findPivot_nil F s hc]) h2
        · have h4 : ¬s.iters < s.m_pivots.length := fun hlt => h1 ⟨hc, hlt⟩
          omega

lemma reach_zero (F : α → α → α) {s : State α} (h : Reachable F s) :
    ∀ i j, s.m_pivots.length ≤ i ∨ s.m_pivots.length ≤ j → s.m_ek j i = 0 := by
  induction h with
  | init c g n => intro i j _; rfl
  | next u t hu hok ih =>
    obtain ⟨hne, hlt, rfl⟩ := step_ok F hok
    intro i j hij
    have hlen : (stepPure F u).m_pivots.length = u.m_pivots.length + 1 := by
      simp [stepPure, applyPivot_pivots]
    rw [hlen] at hij
    rw [stepPure, applyPivot_m_ek_out F u _ _ (by omega)]
    exact ih i j (by omega)

lemma eval_ek_congr (F : α → α → α) (s t : State α)
    (hp : t.m_pivots = s.m_pivots)
    (hm : ∀ i j, i < s.m_pivots.length → j < s.m_pivots.length →
      t.m_ek j i = s.m_ek j i)
    (x y : α) : eval_ek F t x y = eval_ek F s x y := by
  unfold eval_ek pget
  rw [hp]
  congr 1
  refine Finset.sum_congr rfl fun i hi => Finset.sum_congr rfl fun j hj => ?_
  rw [hm i j (Finset.mem_range.mp hi) (Finset.mem_range.mp hj)]

end StepLemmas

/-! ## C1 -/

/-- C1: in any solver state with `k` recorded pivots, `eval_ek x y` is
exactly `F x y` plus the double sum over `i, j < k` of
`m_ek[j][i] · F(pivot[i].x, y) · F(x, pivot[j].y)`; in particular the
source's skipping of exactly-zero matrix entries does not change the
result. -/
theorem eval_ek_invariant {α : Type} [LinearOrderedField α]
    (F : α → α → α) (s : State α) (x y : α) :
    eval_ek F s x y
      = F x y + ∑ i in Finset.range s.m_pivots.length,
          ∑ j in Finset.range s.m_pivots.length,
            s.m_ek j i * F (pget s i).1 y * F x (pget s j).2 :=
  eval_ek_eq F s x y

/-! ## C2 -/

/-- C2: after a successful iteration step (in particular the selected
maximal residual was nonzero), the updated error function evaluates to
exactly zero at the just-chosen pivot. -/
theorem step_zeroes_new_pivot {α : Type} [LinearOrderedField α]
    (F : α → α → α) (s t : State α) (hr : Reachable F s)
    (hok : step F s = .ok t) :
    eval_ek F t (findPivot F s).1.1 (findPivot F s).1.2 = 0 := by
  obtain ⟨hne, _, rfl⟩ := step_ok F hok
  rw [stepPure]
  exact applyPivot_zero F s (findPivot F s).1 (reach_zero F hr)
    (findPivot_consistent F s hne) hne

set_option maxRecDepth 8000 in
/-- Witness for the zeroing theorem at a concrete instance. -/
theorem step_zeroes_new_pivot_witness :
    step fAff q0 = .ok (stepPure fAff q0)
    ∧ eval_ek fAff (stepPure fAff q0)
        (findPivot fAff q0).1.1 (findPivot fAff q0).1.2 = 0 :=
  ⟨by with_unfolding_all rfl,
   step_zeroes_new_pivot fAff q0 (stepPure fAff q0) (Reachable.init [0, 1] 1 1)
     (by with_unfolding_all rfl)⟩

/-! ## C3 -/

/-- C3 counterexample: with a constant target every scanned pair of the
two-node grid ties at residual magnitude `1`; the first-encountered pair
in scan order is `(0, 0)` and it attains the selected maximum, yet the
selected pivot is the last pair `(1, 1)` — the `>=` comparison breaks
ties in favour of the last-encountered pair, not the first. -/
theorem pivot_selection_cex :
    scanPairs q0 = [(0, 0), (1, 0), (0, 1), (1, 1)]
    ∧ |eval_ek fConst q0 0 0| = |(findPivot fConst q0).2|
    ∧ (findPivot fConst q0).1 = (1, 1)
    ∧ ¬(findPivot fConst q0).1 = (0, 0) := by
  refine ⟨?_, ?_, ?_, ?_⟩ <;> with_unfolding_all decide

/-- C3 (amended): each step scans exactly the full cross product of the
candidate grid with itself; the selected pivot is a scanned pair whose
residual magnitude dominates every scanned pair, its recorded value is
the residual at that pair, and every pair scanned after it has strictly
smaller magnitude — i.e. ties are broken in favour of the
last-encountered pair of the fixed scan order. -/
theorem pivot_selection {α : Type} [LinearOrderedField α]
    (F : α → α → α) (s : State α) (hc : s.m_coeff ≠ []) :
    (∀ p : α × α, p ∈ scanPairs s ↔ p.1 ∈ s.m_coeff ∧ p.2 ∈ s.m_coeff)
    ∧ (scanPairs s).length = s.m_coeff.length * s.m_coeff.length
    ∧ (∀ p ∈ scanPairs s, |eval_ek F s p.1 p.2| ≤ |(findPivot F s).2|)
    ∧ ∃ t1 t2, scanPairs s = t1 ++ (findPivot F s).1 :: t2
        ∧ (findPivot F s).2 = eval_ek F s (findPivot F s).1.1 (findPivot F s).1.2
        ∧ ∀ q ∈ t2, |eval_ek F s q.1 q.2| < |(findPivot F s).2| :=
  ⟨fun p => scanPairs_mem s p, scanPairs_length s, findPivot_max F s,
    findPivot_spec F s hc⟩

/-- Witness for the pivot-selection theorem at a concrete instance. -/
theorem pivot_selection_witness :
    q0.m_coeff ≠ []
    ∧ ((∀ p : ℚ × ℚ, p ∈ scanPairs q0 ↔ p.1 ∈ q0.m_coeff ∧ p.2 ∈ q0.m_coeff)
      ∧ (scanPairs q0).length = q0.m_coeff.length * q0.m_coeff.length
      ∧ (∀ p ∈ scanPairs q0, |eval_ek fAff q0 p.1 p.2| ≤ |(findPivot fAff q0).2|)
      ∧ ∃ t1 t2, scanPairs q0 = t1 ++ (findPivot fAff q0).1 :: t2
          ∧ (findPivot fAff q0).2
              = eval_ek fAff q0 (findPivot fAff q0).1.1 (findPivot fAff q0).1.2
          ∧ ∀ q ∈ t2, |eval_ek fAff q0 q.1 q.2| < |(findPivot fAff q0).2|) :=
  ⟨by decide, pivot_selection fAff q0 (by decide)⟩

/-! ## C4 -/

/-- C4: a step taken within capacity fails with the propagated
division-by-zero error exactly when the selected maximal residual is
exactly zero, and completes without error whenever that residual is
nonzero. -/
theorem step_divide_error {α : Type} [LinearOrderedField α]
    (F : α → α → α) (s : State α) (h : s.m_pivots.length < s.iters) :
    (step F s = .error .divByZero ↔ (findPivot F s).2 = 0)
    ∧ ((findPivot F s).2 ≠ 0 → step F s = .ok (stepPure F s)) := by
  have h1 : ¬(s.m_coeff ≠ [] ∧ s.iters < s.m_pivots.length) := by
    rintro ⟨-, hlt⟩
    omega
  constructor
  · constructor
    · intro he
      by_contra hv
      rw [step, if_neg h1, if_neg hv, if_neg (Nat.ne_of_lt h)] at he
      exact absurd he (by simp)
    · intro hv
      rw [step, if_neg h1, if_pos hv]
  · intro hv
    rw [step, if_neg h1, if_neg hv, if_neg (Nat.ne_of_lt h)]

/-- Witness for the division-error theorem at a concrete instance. -/
theorem step_divide_error_witness :
    q0.m_pivots.length < q0.iters
    ∧ ((step fAff q0 = .error .divByZero ↔ (findPivot fAff q0).2 = 0)
      ∧ ((findPivot fAff q0).2 ≠ 0 → step fAff q0 = .ok (stepPure fAff q0))) :=
  ⟨by decide, step_divide_error fAff q0 (by decide)⟩

/-! ## C8 -/

set_option maxRecDepth 8000 in
/-- C8 counterexample: no capacity check exists; a solver sized for one
pivot performs its first step successfully, and the second step reaches
the out-of-bounds matrix access instead of being rejected at
construction. -/
theorem step_capacity_cex :
    step fAff q0 = .ok (stepPure fAff q0)
    ∧ step fAff (stepPure fAff q0) = .error .outOfBounds := by
  constructor
  · with_unfolding_all rfl
  · with_unfolding_all rfl

/-- C8 (amended): the constructor performs no capacity check; the update
step stays inside the `iters × iters` matrix exactly for the first
`iters` steps — a step taken with fewer than `iters` recorded pivots
never reports the out-of-bounds access, and a step taken at or beyond
`iters` recorded pivots never completes. -/
theorem step_capacity {α : Type} [LinearOrderedField α]
    (F : α → α → α) (s : State α) :
    (s.m_pivots.length < s.iters → step F s ≠ .error .outOfBounds)
    ∧ (s.iters ≤ s.m_pivots.length → ∀ t, step F s ≠ .ok t) := by
  constructor
  · intro h
    have h1 : ¬(s.m_coeff ≠ [] ∧ s.iters < s.m_pivots.length) := by
      rintro ⟨-, hlt⟩
      omega
    rw [step, if_neg h1]
    by_cases hv : (findPivot F s).2 = 0
    · rw [if_pos hv]
      simp
    · rw [if_neg hv, if_neg (Nat.ne_of_lt h)]
      simp
  · intro h t hok
    obtain ⟨-, hlt, -⟩ := step_ok F hok
    omega

set_option maxRecDepth 8000 in
/-- Witness for the capacity theorem at concrete instances. -/
theorem step_capacity_witness :
    step fAff q0 ≠ .error .outOfBounds
    ∧ ∀ t, step fAff (stepPure fAff q0) ≠ .ok t :=
  ⟨(step_capacity fAff q0).1 (by decide),
   (step_capacity fAff (stepPure fAff q0)).2 (by with_unfolding_all decide)⟩

/-! ## C10 -/

/-- C10: in every reachable solver state with `k` recorded pivots, every
matrix entry with row or column index at or beyond `k` is exactly zero,
and the value of the error function depends only on the top-left
`k × k` sub-block (together with the pivot list). -/
theorem matrix_zero_outside {α : Type} [LinearOrderedField α]
    (F : α → α → α) (s : State α) (h : Reachable F s) :
    (∀ i j, s.m_pivots.length ≤ i ∨ s.m_pivots.length ≤ j → s.m_ek j i = 0)
    ∧ (∀ t : State α, t.m_pivots = s.m_pivots →
        (∀ i j, i < s.m_pivots.length → j < s.m_pivots.length →
          t.m_ek j i = s.m_ek j i) →
        ∀ x y : α, eval_ek F t x y = eval_ek F s x y) :=
  ⟨reach_zero F h, fun t hp hm x y => eval_ek_congr F s t hp hm x y⟩

/-- Witness for the zero-block theorem at a concrete instance. -/
theorem matrix_zero_outside_witness :
    (∀ i j, q0.m_pivots.length ≤ i ∨ q0.m_pivots.length ≤ j → q0.m_ek j i = 0)
    ∧ (∀ t : State ℚ, t.m_pivots = q0.m_pivots →
        (∀ i j, i < q0.m_pivots.length → j < q0.m_pivots.length →
          t.m_ek j i = q0.m_ek j i) →
        ∀ x y : ℚ, eval_ek fAff t x y = eval_ek fAff q0 x y) :=
  matrix_zero_outside fAff q0 (Reachable.init [0, 1] 1 1)

/-! ## C7 -/

/-- C7: the candidate grid of a solver constructed with `grid_size = n`
(`n ≥ 1`) is exactly the `n + 1` nodes `cheb i n = -cos(π·i/n) · c`
with `c = 0.999999999999999`; every node lies strictly inside
`(-1, 1)`, and consequently the argument `1 - d·d` of the square root in
the target function, with `d = (node + 1)/2`, is strictly positive at
every grid node — the domain boundary `d = ±1` is never reached there. -/
theorem grid_nodes {n it : Nat} (hn : 1 ≤ n) :
    (mkSolver n it).m_coeff = (List.range (n + 1)).map (fun i => cheb i n)
    ∧ (mkSolver n it).m_coeff.length = n + 1
    ∧ ∀ i, i ≤ n →
        (-1 < cheb i n ∧ cheb i n < 1
          ∧ 0 < 1 - ((cheb i n + 1) / 2) * ((cheb i n + 1) / 2)) := by
  refine ⟨rfl, by simp [mkSolver, mkSolverWith], fun i _ => ?_⟩
  have hc1 : Real.cos (Real.pi * i / n) ≤ 1 := Real.cos_le_one _
  have hc2 : -1 ≤ Real.cos (Real.pi * i / n) := Real.neg_one_le_cos _
  have hb1 : -1 < cheb i n := by
    rw [cheb]
    nlinarith
  have hb2 : cheb i n < 1 := by
    rw [cheb]
    nlinarith
  exact ⟨hb1, hb2, by nlinarith⟩

/-- Witness for the grid-node theorem at a concrete instance. -/
theorem grid_nodes_witness :
    (1 : Nat) ≤ 1
    ∧ ((mkSolver 1 1).m_coeff = (List.range (1 + 1)).map (fun i => cheb i 1)
      ∧ (mkSolver 1 1).m_coeff.length = 1 + 1
      ∧ ∀ i, i ≤ 1 →
          (-1 < cheb i 1 ∧ cheb i 1 < 1
            ∧ 0 < 1 - ((cheb i 1 + 1) / 2) * ((cheb i 1 + 1) / 2))) :=
  ⟨le_rfl, grid_nodes le_rfl⟩

/-! ## C9 -/

/-- C9: the emitted text is exactly the target-function line, the `e0`
line, the four per-pivot statements for each recorded pivot in order,
then the single final `splot` directive naming `e<L>`; it is a function
of the pivot list alone (states with equal pivot lists emit identical
text whatever their coefficient matrices), and with no pivots the output
is exactly the three lines `f`, `e0`, `splot [-1:1][-1:1] e0(x,y)`. -/
theorem dump_gnuplot_spec {α : Type} (render : α → String) :
    (∀ s t : State α, s.m_pivots = t.m_pivots →
        dump_gnuplot render s = dump_gnuplot render t)
    ∧ (∀ s : State α, s.m_pivots = [] →
        dump_gnuplot render s
          = ["f(x,y)=sin((1-x)/2*acos((1+y)/2))/sqrt(1-((y+1)/2)**2)",
             "e0(x,y)=f(x,y)",
             "splot [-1:1][-1:1] e0(x,y)"])
    ∧ (∀ s : State α,
        dump_gnuplot render s
          = "f(x,y)=sin((1-x)/2*acos((1+y)/2))/sqrt(1-((y+1)/2)**2)"
            :: "e0(x,y)=f(x,y)"
            :: ((s.m_pivots.enum.map (fun q => pivotLines render q.1 q.2)).flatten
              ++ ["splot [-1:1][-1:1] e" ++ toString s.m_pivots.length
                    ++ "(x,y)"])) := by
  refine ⟨fun s t h => ?_, fun s h => ?_, fun s => rfl⟩
  · rw [dump_gnuplot, dump_gnuplot, h]
  · rw [dump_gnuplot, h]
    with_unfolding_all rfl

/-- Witness for the emitter theorem at concrete instances. -/
theorem dump_gnuplot_spec_witness :
    dump_gnuplot qRender qEmitA = dump_gnuplot qRender qEmitB
    ∧ dump_gnuplot qRender qEmitA
        = ["f(x,y)=sin((1-x)/2*acos((1+y)/2))/sqrt(1-((y+1)/2)**2)",
           "e0(x,y)=f(x,y)",
           "splot [-1:1][-1:1] e0(x,y)"] :=
  ⟨(dump_gnuplot_spec qRender).1 qEmitA qEmitB rfl,
   (dump_gnuplot_spec qRender).2.1 qEmitA rfl⟩

end LolRemez
